import Mathlib

/-!
Shallow embedding of the truncated-Gaussian rejection sampler
(src/scripts/truncated_gaussian_sampler.py and
src/scripts/MonteCarloSampler.py) over the real numbers, together with
proofs and refutations of the specification's claims about it.

The Python floats are modelled as exact reals.  The sampler's uniform
random source is modelled by an explicit, finite list of draw pairs
(u, coin): each loop iteration consumes exactly one pair, mirroring the
two np.random.uniform() calls per iteration.  The loop returns the
accumulated samples together with the unconsumed part of the stream, or
none if the stream is exhausted before n samples are accepted.
-/

open Real

/-- Truncated Maclaurin series for the error function, 125 terms, from
the module-level err in truncated_gaussian_sampler.py. -/
noncomputable def err (x : ℝ) : ℝ :=
  2 / Real.sqrt Real.pi *
    (Finset.range 125).sum
      (fun i => (-1 : ℝ) ^ i * x ^ (2 * i + 1) /
        ((Nat.factorial i : ℝ) * (2 * (i : ℝ) + 1)))

/-- Approximation to the standard Gaussian CDF, from Phi in
truncated_gaussian_sampler.py. -/
noncomputable def Phi (x : ℝ) : ℝ := 0.5 * (1 + err (x / Real.sqrt 2))

/-- Inverse of the exponential CDF with parameter lambda_0, from
inverse_exp in truncated_gaussian_sampler.py. -/
noncomputable def inverse_exp (x lambda_0 : ℝ) : ℝ :=
  -1 * Real.log (1 - x) / lambda_0

/-- Exponential density, from expo in truncated_gaussian_sampler.py. -/
noncomputable def expo (x lambda_0 : ℝ) : ℝ :=
  lambda_0 * Real.exp (-lambda_0 * x)

/-- Standard Gaussian density, from phi in
truncated_gaussian_sampler.py. -/
noncomputable def phi (x : ℝ) : ℝ :=
  Real.exp (-(x ^ 2) / 2) / Real.sqrt (2 * Real.pi)

/-- The tuned exponential rate, line
lambda_0 = (c + math.sqrt((c**2.0)+4.0))/2.0 of
truncated_gaussian_sampler. -/
noncomputable def lambda_0 (c : ℝ) : ℝ := (c + Real.sqrt (c ^ 2 + 4)) / 2

/-- The bound factor, line
b = math.exp(((lambda_0**2.0) - (2.0*lambda_0*c))/2.0)/(math.sqrt(2.0*math.pi)*lambda_0*(1.0-Phi_c))
of truncated_gaussian_sampler, with Phi_c = Phi(c). -/
noncomputable def b (c : ℝ) : ℝ :=
  Real.exp ((lambda_0 c ^ 2 - 2 * lambda_0 c * c) / 2) /
    (Real.sqrt (2 * Real.pi) * lambda_0 c * (1 - Phi c))

/-- The normalizing constant, line const = ((1-Phi_c)*b) of
truncated_gaussian_sampler. -/
noncomputable def const (c : ℝ) : ℝ := (1 - Phi c) * b c

/-- The acceptance ratio computed each iteration, line
r = (phi(x+c)/(expo(x,lambda_0))*const) of truncated_gaussian_sampler,
expressed at the tuned parameters for truncation point c and candidate
offset x. -/
noncomputable def accept_ratio (c x : ℝ) : ℝ :=
  phi (x + c) / expo x (lambda_0 c) * const c

/-- The rejection loop of truncated_gaussian_sampler: while
len(samples) < n, draw u, form the candidate x = inverse_exp(u, lam),
compute r, draw coin, and append x + c when coin < r.  The stream of
uniform draws is explicit; the unconsumed remainder is returned. -/
noncomputable def sampleLoop (n : ℤ) (c lam cst : ℝ) :
    List (ℝ × ℝ) → List ℝ → Option (List ℝ × List (ℝ × ℝ))
  | [], samples =>
      if (samples.length : ℤ) < n then none else some (samples, [])
  | (u, coin) :: rest, samples =>
      if (samples.length : ℤ) < n then
        if coin < phi (inverse_exp u lam + c) / expo (inverse_exp u lam) lam * cst then
          sampleLoop n c lam cst rest (samples ++ [inverse_exp u lam + c])
        else
          sampleLoop n c lam cst rest samples
      else some (samples, (u, coin) :: rest)

/-- The sampler truncated_gaussian_sampler(n, c): tune the proposal at
c, then run the rejection loop starting from an empty sample list. -/
noncomputable def truncated_gaussian_sampler (n : ℤ) (c : ℝ)
    (rands : List (ℝ × ℝ)) : Option (List ℝ × List (ℝ × ℝ)) :=
  sampleLoop n c (lambda_0 c) (const c) rands []

/-- Following the spec's words (section 4.2): rate = (c + sqrt(c^2 + 4)) / 2. -/
noncomputable def specRate (c : ℝ) : ℝ := (c + Real.sqrt (c ^ 2 + 4)) / 2

/-- Following the spec's words (section 4.2):
b = exp((rate^2 - 2*rate*c) / 2) / (sqrt(2 pi) * rate * (1 - Phi_c)). -/
noncomputable def specB (c : ℝ) : ℝ :=
  Real.exp ((specRate c ^ 2 - 2 * specRate c * c) / 2) /
    (Real.sqrt (2 * Real.pi) * specRate c * (1 - Phi c))

/-- Following the spec's words (section 4.2):
normalizingConstant = (1 - Phi_c) * b. -/
noncomputable def specNormalizingConstant (c : ℝ) : ℝ := (1 - Phi c) * specB c

/-- A Python NameError on an unresolved module-level name.
MonteCarloSampler.py contains no import statements, so the names math
and np are bound nowhere in its module globals, and every attribute
access math.* or np.* inside the class methods raises this error. -/
inductive PyNameError where
  | math : PyNameError
  | np : PyNameError

namespace MonteCarloSampler

/-- The err method of class MonteCarloSampler (MonteCarloSampler.py).
The defining module never imports math, so the loop body reference
math.factorial(i) raises NameError at i = 0 for every input: the
method never produces a value. -/
def err (x : ℝ) : Except PyNameError ℝ := Except.error PyNameError.math

/-- The Phi method of class MonteCarloSampler: evaluating the argument
x/math.sqrt(2.0) raises NameError (math unresolved in
MonteCarloSampler.py) before self.err is even called. -/
def Phi (x : ℝ) : Except PyNameError ℝ := Except.error PyNameError.math

/-- The inverse_exp method of class MonteCarloSampler: math.log is
unresolved in its module, so the call raises NameError for every
input. -/
def inverse_exp (x lambda_0 : ℝ) : Except PyNameError ℝ :=
  Except.error PyNameError.math

/-- The expo method of class MonteCarloSampler: math.exp is unresolved
in its module, so the call raises NameError for every input. -/
def expo (x lambda_0 : ℝ) : Except PyNameError ℝ :=
  Except.error PyNameError.math

/-- The phi method of class MonteCarloSampler: math.exp and math.sqrt
are unresolved in its module, so the call raises NameError for every
input. -/
def phi (x : ℝ) : Except PyNameError ℝ := Except.error PyNameError.math

/-- The truncated_gaussian_sampler method of class MonteCarloSampler.
Its first statement Phi_c = self.Phi(c) raises NameError (math
unresolved inside Phi) and the exception propagates out of the method;
had Phi returned, the next statement
lambda_0 = (c + math.sqrt((c**2.0)+4.0))/2.0 would raise the same
NameError.  The method therefore returns no sample sequence for any
input, and the rejection loop (whose body also references np and math)
is unreachable. -/
def truncated_gaussian_sampler (n : ℤ) (c : ℝ) (rands : List (ℝ × ℝ)) :
    Except PyNameError (List ℝ × List (ℝ × ℝ)) :=
  match Phi c with
  | Except.error e => Except.error e
  | Except.ok _Phi_c => Except.error PyNameError.math

end MonteCarloSampler

section Helpers

lemma sqrt_two_pi_pos : 0 < Real.sqrt (2 * Real.pi) :=
  Real.sqrt_pos.mpr (by positivity)

lemma phi_pos (x : ℝ) : 0 < phi x :=
  div_pos (Real.exp_pos _) sqrt_two_pi_pos

lemma expo_pos {lam : ℝ} (hlam : 0 < lam) (x : ℝ) : 0 < expo x lam :=
  mul_pos hlam (Real.exp_pos _)

lemma abs_lt_sqrt_sq_add_four (c : ℝ) : |c| < Real.sqrt (c ^ 2 + 4) := by
  have h1 : |c| = Real.sqrt (c ^ 2) := (Real.sqrt_sq_eq_abs c).symm
  rw [h1]
  exact Real.sqrt_lt_sqrt (sq_nonneg c) (by linarith)

lemma lambda_pos (c : ℝ) : 0 < lambda_0 c := by
  have h := abs_lt_sqrt_sq_add_four c
  have h2 : -c ≤ |c| := neg_le_abs c
  unfold lambda_0
  linarith

lemma lambda_sq (c : ℝ) : lambda_0 c ^ 2 = c * lambda_0 c + 1 := by
  have hs : Real.sqrt (c ^ 2 + 4) ^ 2 = c ^ 2 + 4 :=
    Real.sq_sqrt (by positivity)
  unfold lambda_0
  nlinarith [hs]

lemma lambda_ge_one {c : ℝ} (hc : 0 ≤ c) : 1 ≤ lambda_0 c := by
  have h4 : (2 : ℝ) = Real.sqrt 4 := by
    rw [show (4 : ℝ) = 2 ^ 2 by norm_num, Real.sqrt_sq (by norm_num)]
  have hle : Real.sqrt 4 ≤ Real.sqrt (c ^ 2 + 4) :=
    Real.sqrt_le_sqrt (by nlinarith)
  unfold lambda_0
  rw [← h4] at hle
  linarith

lemma lambda_zero : lambda_0 0 = 1 := by
  unfold lambda_0
  rw [show (0 : ℝ) ^ 2 + 4 = 2 ^ 2 by norm_num, Real.sqrt_sq (by norm_num)]
  norm_num

lemma err_zero : err 0 = 0 := by
  unfold err
  rw [Finset.sum_eq_zero, mul_zero]
  intro i _
  rw [zero_pow (by omega), mul_zero, zero_div]

lemma Phi_zero : Phi 0 = 1 / 2 := by
  unfold Phi
  rw [zero_div, err_zero]
  norm_num

lemma exp_one_lt_two_pi : Real.exp 1 < 2 * Real.pi := by
  have h1 := Real.exp_one_lt_d9
  have h2 := Real.pi_gt_three
  linarith

lemma const_of_Phi_one {c : ℝ} (h : 1 - Phi c = 0) : const c = 0 := by
  unfold const
  rw [h, zero_mul]

lemma const_eq {c : ℝ} (h : 1 - Phi c ≠ 0) :
    const c = Real.exp ((lambda_0 c ^ 2 - 2 * lambda_0 c * c) / 2) /
      (Real.sqrt (2 * Real.pi) * lambda_0 c) := by
  have hlam : lambda_0 c ≠ 0 := ne_of_gt (lambda_pos c)
  have hsq : Real.sqrt (2 * Real.pi) ≠ 0 := ne_of_gt sqrt_two_pi_pos
  unfold const b
  field_simp
  ring

lemma accept_ratio_closed (c x : ℝ) (h : 1 - Phi c ≠ 0) :
    accept_ratio c x =
      Real.exp (-(x + c) ^ 2 / 2 + lambda_0 c * x +
        (lambda_0 c ^ 2 - 2 * lambda_0 c * c) / 2) /
      (2 * Real.pi * lambda_0 c ^ 2) := by
  have hlam : lambda_0 c ≠ 0 := ne_of_gt (lambda_pos c)
  have hsq : Real.sqrt (2 * Real.pi) ≠ 0 := ne_of_gt sqrt_two_pi_pos
  have hss : Real.sqrt (2 * Real.pi) * Real.sqrt (2 * Real.pi) = 2 * Real.pi :=
    Real.mul_self_sqrt (by positivity)
  unfold accept_ratio phi expo
  rw [const_eq h]
  rw [show -(x + c) ^ 2 / 2 + lambda_0 c * x +
      (lambda_0 c ^ 2 - 2 * lambda_0 c * c) / 2 =
      -(x + c) ^ 2 / 2 + (-(lambda_0 c * x) * (-1) +
        (lambda_0 c ^ 2 - 2 * lambda_0 c * c) / 2) from by ring]
  rw [Real.exp_add, Real.exp_add]
  have hexpinv : Real.exp (-(lambda_0 c * x) * (-1)) =
      (Real.exp (-(lambda_0 c * x)))⁻¹ := by
    rw [show -(lambda_0 c * x) * (-1) = -(-(lambda_0 c * x)) from by ring,
      Real.exp_neg]
  rw [hexpinv]
  have hexne : Real.exp (-(lambda_0 c * x)) ≠ 0 := Real.exp_ne_zero _
  have hneg : -lambda_0 c * x = -(lambda_0 c * x) := by ring
  rw [hneg]
  field_simp
  ring_nf
  rw [Real.sq_sqrt (by norm_num : (0:ℝ) ≤ 2),
    Real.sq_sqrt (le_of_lt Real.pi_pos)]
  ring

end Helpers

section AltSeries

lemma alt_sum_ge (a : ℕ → ℝ) (hdec : ∀ i, a (i + 1) ≤ a i) :
    ∀ k : ℕ, a 0 - a 1 ≤
      (Finset.range (2 * k + 2)).sum (fun i => (-1 : ℝ) ^ i * a i) := by
  intro k
  induction k with
  | zero =>
      rw [show 2 * 0 + 2 = 2 by norm_num, Finset.sum_range_succ,
        Finset.sum_range_one]
      norm_num
  | succ m ih =>
      rw [show 2 * (m + 1) + 2 = (2 * m + 2) + 1 + 1 by ring,
        Finset.sum_range_succ, Finset.sum_range_succ]
      have he : (-1 : ℝ) ^ (2 * m + 2) = 1 :=
        Even.neg_one_pow (by exact ⟨m + 1, by ring⟩)
      have ho : (-1 : ℝ) ^ (2 * m + 2 + 1) = -1 :=
        Odd.neg_one_pow (by exact ⟨m + 1, by ring⟩)
      rw [he, ho]
      have hd := hdec (2 * m + 2)
      have h23 : a (2 * m + 2 + 1) = a (2 * m + 3) := by norm_num
      linarith [ih]

lemma sqrt_two_bounds : (1.414 : ℝ) ≤ Real.sqrt 2 ∧ Real.sqrt 2 ≤ 1.415 := by
  constructor
  · have h : (1.414 : ℝ) = Real.sqrt (1.414 ^ 2) :=
      (Real.sqrt_sq (by norm_num)).symm
    rw [h]
    exact Real.sqrt_le_sqrt (by norm_num)
  · have h : (1.415 : ℝ) = Real.sqrt (1.415 ^ 2) :=
      (Real.sqrt_sq (by norm_num)).symm
    rw [h]
    exact Real.sqrt_le_sqrt (by norm_num)

lemma sqrt_two_pos : (0 : ℝ) < Real.sqrt 2 := Real.sqrt_pos.mpr (by norm_num)

lemma err_series_term_dec (i : ℕ) :
    Real.sqrt 2 ^ (2 * (i + 1) + 1) /
        ((Nat.factorial (i + 1) : ℝ) * (2 * ((i + 1 : ℕ) : ℝ) + 1)) ≤
      Real.sqrt 2 ^ (2 * i + 1) /
        ((Nat.factorial i : ℝ) * (2 * (i : ℝ) + 1)) := by
  have hfac : (0 : ℝ) < (Nat.factorial i : ℝ) := by
    exact_mod_cast Nat.factorial_pos i
  have hi : (0 : ℝ) ≤ (i : ℝ) := Nat.cast_nonneg i
  have hP : (0 : ℝ) < Real.sqrt 2 ^ (2 * i + 1) := pow_pos sqrt_two_pos _
  have hpow : Real.sqrt 2 ^ (2 * (i + 1) + 1) =
      Real.sqrt 2 ^ (2 * i + 1) * 2 := by
    rw [show 2 * (i + 1) + 1 = (2 * i + 1) + 2 by ring, pow_add,
      Real.sq_sqrt (by norm_num : (0:ℝ) ≤ 2)]
  have hfs : (Nat.factorial (i + 1) : ℝ) = ((i : ℝ) + 1) * (Nat.factorial i : ℝ) := by
    rw [Nat.factorial_succ]
    push_cast
    ring
  have hcast : ((i + 1 : ℕ) : ℝ) = (i : ℝ) + 1 := by push_cast; ring
  rw [hpow, hfs, hcast, div_le_div_iff₀ (by positivity) (by positivity)]
  have hkey : (2 : ℝ) * (2 * (i : ℝ) + 1) ≤ ((i : ℝ) + 1) * (2 * ((i : ℝ) + 1) + 1) := by
    nlinarith [sq_nonneg (i : ℝ)]
  nlinarith [mul_le_mul_of_nonneg_left hkey (le_of_lt (mul_pos hP hfac))]

lemma err_neg_sqrt_two_neg : err (-Real.sqrt 2) < 0 := by
  unfold err
  have hterm : ∀ i ∈ Finset.range 125,
      (-1 : ℝ) ^ i * (-Real.sqrt 2) ^ (2 * i + 1) /
          ((Nat.factorial i : ℝ) * (2 * (i : ℝ) + 1)) =
        -((-1 : ℝ) ^ i * Real.sqrt 2 ^ (2 * i + 1) /
          ((Nat.factorial i : ℝ) * (2 * (i : ℝ) + 1))) := by
    intro i _
    rw [show (-Real.sqrt 2) ^ (2 * i + 1) = -(Real.sqrt 2 ^ (2 * i + 1)) from
      Odd.neg_pow ⟨i, by ring⟩ _]
    ring
  rw [Finset.sum_congr rfl hterm, Finset.sum_neg_distrib]
  have hS : 0 < (Finset.range 125).sum
      (fun i => (-1 : ℝ) ^ i * Real.sqrt 2 ^ (2 * i + 1) /
        ((Nat.factorial i : ℝ) * (2 * (i : ℝ) + 1))) := by
    set a : ℕ → ℝ := fun i => Real.sqrt 2 ^ (2 * i + 1) /
      ((Nat.factorial i : ℝ) * (2 * (i : ℝ) + 1)) with ha
    have hsum : (Finset.range 125).sum
        (fun i => (-1 : ℝ) ^ i * Real.sqrt 2 ^ (2 * i + 1) /
          ((Nat.factorial i : ℝ) * (2 * (i : ℝ) + 1))) =
        (Finset.range 124).sum (fun i => (-1 : ℝ) ^ i * a i) +
          (-1 : ℝ) ^ 124 * a 124 := by
      rw [← Finset.sum_range_succ]
      apply Finset.sum_congr rfl
      intro i _
      rw [ha]
      ring
    rw [hsum]
    have h124 : a 0 - a 1 ≤ (Finset.range 124).sum (fun i => (-1 : ℝ) ^ i * a i) := by
      have := alt_sum_ge a (fun i => err_series_term_dec i) 61
      rw [show 2 * 61 + 2 = 124 by norm_num] at this
      exact this
    have ha0 : a 0 = Real.sqrt 2 := by
      rw [ha]
      norm_num [Nat.factorial]
    have ha1 : a 1 = Real.sqrt 2 ^ 3 / 3 := by
      rw [ha]
      norm_num [Nat.factorial]
    have hcube : Real.sqrt 2 ^ 3 = 2 * Real.sqrt 2 := by
      rw [show 3 = 2 + 1 by norm_num, pow_add,
        Real.sq_sqrt (by norm_num : (0:ℝ) ≤ 2)]
      ring
    have hpos01 : 0 < a 0 - a 1 := by
      rw [ha0, ha1, hcube]
      nlinarith [sqrt_two_pos]
    have h124pos : 0 ≤ a 124 := by
      rw [ha]
      positivity
    have hev : (-1 : ℝ) ^ 124 = 1 := Even.neg_one_pow ⟨62, by norm_num⟩
    rw [hev, one_mul]
    linarith
  have hcoef : (0 : ℝ) < 2 / Real.sqrt Real.pi :=
    div_pos (by norm_num) (Real.sqrt_pos.mpr Real.pi_pos)
  nlinarith [mul_pos hcoef hS]

lemma neg_two_div_sqrt_two : (-2 : ℝ) / Real.sqrt 2 = -Real.sqrt 2 := by
  rw [div_eq_iff (ne_of_gt sqrt_two_pos)]
  rw [show -Real.sqrt 2 * Real.sqrt 2 = -(Real.sqrt 2 * Real.sqrt 2) by ring,
    Real.mul_self_sqrt (by norm_num : (0:ℝ) ≤ 2)]

lemma one_sub_Phi_neg_two_pos : 0 < 1 - Phi (-2) := by
  unfold Phi
  rw [neg_two_div_sqrt_two]
  have := err_neg_sqrt_two_neg
  norm_num
  linarith

lemma lambda_neg_two : lambda_0 (-2) = Real.sqrt 2 - 1 := by
  unfold lambda_0
  rw [show ((-2 : ℝ) ^ 2 + 4) = 8 by norm_num]
  have h8 : Real.sqrt 8 = 2 * Real.sqrt 2 := by
    rw [show (8 : ℝ) = (2 * Real.sqrt 2) ^ 2 by
      rw [mul_pow, Real.sq_sqrt (by norm_num : (0:ℝ) ≤ 2)]; norm_num]
    exact Real.sqrt_sq (by positivity)
  rw [h8]
  ring

end AltSeries

section LoopLemmas

lemma sampleLoop_length (n : ℤ) (c lam cst : ℝ) :
    ∀ (rands : List (ℝ × ℝ)) (samples out : List ℝ) (rest : List (ℝ × ℝ)),
      (samples.length : ℤ) ≤ n →
      sampleLoop n c lam cst rands samples = some (out, rest) →
      (out.length : ℤ) = n := by
  intro rands
  induction rands with
  | nil =>
      intro samples out rest hle h
      simp only [sampleLoop] at h
      by_cases hlt : (samples.length : ℤ) < n
      · rw [if_pos hlt] at h
        exact absurd h (by simp)
      · rw [if_neg hlt] at h
        have heq : samples = out := by
          have := Option.some.inj h
          exact (Prod.mk.injEq _ _ _ _ ▸ this).1
        subst heq
        omega
  | cons p rest' ih =>
      intro samples out rest hle h
      obtain ⟨u, coin⟩ := p
      simp only [sampleLoop] at h
      by_cases hlt : (samples.length : ℤ) < n
      · rw [if_pos hlt] at h
        by_cases hacc : coin < phi (inverse_exp u lam + c) /
            expo (inverse_exp u lam) lam * cst
        · rw [if_pos hacc] at h
          have hlen : (((samples ++ [inverse_exp u lam + c]).length : ℕ) : ℤ) =
              (samples.length : ℤ) + 1 := by
            simp
          exact ih _ out rest (by omega) h
        · rw [if_neg hacc] at h
          exact ih _ out rest (by omega) h
      · rw [if_neg hlt] at h
        have heq : samples = out := by
          have := Option.some.inj h
          exact (Prod.mk.injEq _ _ _ _ ▸ this).1
        subst heq
        omega

lemma sampleLoop_support (n : ℤ) (c lam cst : ℝ) (hlam : 0 < lam) :
    ∀ (rands : List (ℝ × ℝ)) (samples out : List ℝ) (rest : List (ℝ × ℝ)),
      (∀ p ∈ rands, 0 ≤ p.1 ∧ p.1 < 1) →
      (∀ s ∈ samples, c ≤ s) →
      sampleLoop n c lam cst rands samples = some (out, rest) →
      ∀ s ∈ out, c ≤ s := by
  intro rands
  induction rands with
  | nil =>
      intro samples out rest _ hsup h
      simp only [sampleLoop] at h
      by_cases hlt : (samples.length : ℤ) < n
      · rw [if_pos hlt] at h
        exact absurd h (by simp)
      · rw [if_neg hlt] at h
        have : samples = out := by
          have := Option.some.inj h
          exact (Prod.mk.injEq _ _ _ _ ▸ this).1
        exact this ▸ hsup
  | cons p rest' ih =>
      intro samples out rest hr hsup h
      obtain ⟨u, coin⟩ := p
      simp only [sampleLoop] at h
      by_cases hlt : (samples.length : ℤ) < n
      · rw [if_pos hlt] at h
        have hu : 0 ≤ u ∧ u < 1 := by
          have := hr (u, coin) (by simp)
          simpa using this
        have hrest : ∀ p ∈ rest', 0 ≤ p.1 ∧ p.1 < 1 := by
          intro q hq
          exact hr q (by simp [hq])
        by_cases hacc : coin < phi (inverse_exp u lam + c) /
            expo (inverse_exp u lam) lam * cst
        · rw [if_pos hacc] at h
          have hx : 0 ≤ inverse_exp u lam := by
            unfold inverse_exp
            have hlog : Real.log (1 - u) ≤ 0 :=
              Real.log_nonpos (by linarith [hu.1, hu.2]) (by linarith [hu.1])
            have : 0 ≤ -1 * Real.log (1 - u) := by linarith
            exact div_nonneg this hlam.le
          have hsup2 : ∀ s ∈ samples ++ [inverse_exp u lam + c], c ≤ s := by
            intro s hs
            rcases List.mem_append.mp hs with hs1 | hs2
            · exact hsup s hs1
            · have : s = inverse_exp u lam + c := by simpa using hs2
              rw [this]
              linarith
          exact ih _ out rest hrest hsup2 h
        · rw [if_neg hacc] at h
          exact ih _ out rest hrest hsup h
      · rw [if_neg hlt] at h
        have : samples = out := by
          have := Option.some.inj h
          exact (Prod.mk.injEq _ _ _ _ ▸ this).1
        exact this ▸ hsup

lemma sampleLoop_not_lt (n : ℤ) (c lam cst : ℝ) (rands : List (ℝ × ℝ))
    (samples : List ℝ) (h : ¬ (samples.length : ℤ) < n) :
    sampleLoop n c lam cst rands samples = some (samples, rands) := by
  cases rands with
  | nil => simp only [sampleLoop, if_neg h]
  | cons p rest =>
      obtain ⟨u, coin⟩ := p
      simp only [sampleLoop, if_neg h]

end LoopLemmas

section RunOne

lemma inverse_exp_zero (lam : ℝ) : inverse_exp 0 lam = 0 := by
  unfold inverse_exp
  simp

lemma b_zero_pos : 0 < b 0 := by
  unfold b
  rw [Phi_zero, lambda_zero]
  positivity

lemma const_zero_pos : 0 < const 0 := by
  unfold const
  rw [Phi_zero]
  have := b_zero_pos
  nlinarith

lemma run_one : truncated_gaussian_sampler 1 0 [(0, 0)] = some ([0], []) := by
  unfold truncated_gaussian_sampler
  have hr : (0 : ℝ) < phi (inverse_exp 0 (lambda_0 0) + 0) /
      expo (inverse_exp 0 (lambda_0 0)) (lambda_0 0) * const 0 := by
    apply mul_pos
    · exact div_pos (phi_pos _) (expo_pos (lambda_pos 0) _)
    · exact const_zero_pos
  simp only [sampleLoop]
  rw [if_pos (by norm_num : ((([] : List ℝ).length : ℤ) < 1)), if_pos hr]
  rw [inverse_exp_zero]
  norm_num

end RunOne


section ClaimC1

lemma accept_ratio_neg_two_val :
    accept_ratio (-2) 2 =
      Real.exp (3 * Real.sqrt 2 - 5 / 2) /
        (2 * Real.pi * (Real.sqrt 2 - 1) ^ 2) := by
  rw [accept_ratio_closed (-2) 2 (ne_of_gt one_sub_Phi_neg_two_pos),
    lambda_neg_two]
  have hs2 : Real.sqrt 2 ^ 2 = 2 := Real.sq_sqrt (by norm_num)
  have harg : -((2:ℝ) + -2) ^ 2 / 2 + (Real.sqrt 2 - 1) * 2 +
      ((Real.sqrt 2 - 1) ^ 2 - 2 * (Real.sqrt 2 - 1) * (-2)) / 2 =
      3 * Real.sqrt 2 - 5 / 2 := by
    linear_combination (1 / 2) * hs2
  rw [harg]

/-- C1 (counterexample): the claim asserts the acceptance ratio
r = phi(x+c)/expo(x,rate)*normalizingConstant is at most 1 for every
finite c and every x >= 0; at c = -2 and x = 2 the code's ratio
exceeds 1. -/
theorem C1_counterexample : (0:ℝ) ≤ 2 ∧ 1 < accept_ratio (-2) 2 := by
  constructor
  · norm_num
  · rw [accept_ratio_neg_two_val]
    have hb2 := sqrt_two_bounds
    have h1lt : (1:ℝ) < Real.sqrt 2 := by linarith [hb2.1]
    have hpos : (0:ℝ) < Real.sqrt 2 - 1 := by linarith
    have hden : (0:ℝ) < 2 * Real.pi * (Real.sqrt 2 - 1) ^ 2 := by positivity
    rw [one_lt_div hden]
    have hs2 : Real.sqrt 2 ^ 2 = 2 := Real.sq_sqrt (by norm_num)
    have he1 : (Real.sqrt 2 - 1) ^ 2 = 3 - 2 * Real.sqrt 2 := by
      linear_combination hs2
    have hexp : (2.742:ℝ) ≤ Real.exp (3 * Real.sqrt 2 - 5 / 2) := by
      have ha : (1.742:ℝ) ≤ 3 * Real.sqrt 2 - 5 / 2 := by linarith [hb2.1]
      have hone : (1.742:ℝ) + 1 ≤ Real.exp 1.742 := Real.add_one_le_exp 1.742
      have hmono : Real.exp 1.742 ≤ Real.exp (3 * Real.sqrt 2 - 5 / 2) :=
        Real.exp_le_exp.mpr ha
      linarith
    have hpi := Real.pi_lt_d2
    have e2 : (3:ℝ) - 2 * Real.sqrt 2 ≤ 0.172 := by linarith [hb2.1]
    have e4 : 2 * Real.pi * (3 - 2 * Real.sqrt 2) ≤ 2 * Real.pi * 0.172 :=
      mul_le_mul_of_nonneg_left e2 (by positivity)
    have e5 : 2 * Real.pi * 0.172 < 2 * 3.15 * 0.172 := by
      nlinarith [Real.pi_pos, hpi]
    calc 2 * Real.pi * (Real.sqrt 2 - 1) ^ 2
        = 2 * Real.pi * (3 - 2 * Real.sqrt 2) := by rw [he1]
      _ ≤ 2 * Real.pi * 0.172 := e4
      _ < 2 * 3.15 * 0.172 := e5
      _ < 2.742 := by norm_num
      _ ≤ Real.exp (3 * Real.sqrt 2 - 5 / 2) := hexp

/-- C1 (amended): for every c >= 0 and every x >= 0, the acceptance
ratio r = phi(x+c)/expo(x,rate)*normalizingConstant at the tuned
(rate, normalizingConstant) lies in the interval [0, 1]. -/
theorem C1_accept_ratio_bound (c x : ℝ) (hc : 0 ≤ c) (hx : 0 ≤ x) :
    0 ≤ accept_ratio c x ∧ accept_ratio c x ≤ 1 := by
  by_cases hphi : 1 - Phi c = 0
  · have h0 : accept_ratio c x = 0 := by
      unfold accept_ratio
      rw [const_of_Phi_one hphi, mul_zero]
    rw [h0]
    norm_num
  · have hlam := lambda_pos c
    have h1 := lambda_ge_one hc
    have hsq := lambda_sq c
    rw [accept_ratio_closed c x hphi]
    constructor
    · positivity
    · rw [div_le_one (by positivity)]
      have hE : -(x + c) ^ 2 / 2 + lambda_0 c * x +
          (lambda_0 c ^ 2 - 2 * lambda_0 c * c) / 2 ≤ 1 := by
        nlinarith [sq_nonneg (x + c - lambda_0 c), mul_nonneg hc hlam.le]
      have h2 : Real.exp (-(x + c) ^ 2 / 2 + lambda_0 c * x +
          (lambda_0 c ^ 2 - 2 * lambda_0 c * c) / 2) ≤ Real.exp 1 :=
        Real.exp_le_exp.mpr hE
      have h3 := exp_one_lt_two_pi
      have hlam2 : 1 ≤ lambda_0 c ^ 2 := by nlinarith
      have h4 : 2 * Real.pi ≤ 2 * Real.pi * lambda_0 c ^ 2 := by
        nlinarith [Real.pi_pos]
      linarith

/-- C1 (witness): the amended bound holds at c = 0, x = 0. -/
theorem C1_accept_ratio_bound_witness :
    (0:ℝ) ≤ 0 ∧ 0 ≤ accept_ratio 0 0 ∧ accept_ratio 0 0 ≤ 1 :=
  ⟨le_refl 0, (C1_accept_ratio_bound 0 0 (le_refl 0) (le_refl 0)).1,
    (C1_accept_ratio_bound 0 0 (le_refl 0) (le_refl 0)).2⟩

end ClaimC1

section ClaimC2

/-- C2: whenever sample(n, c) returns (the loop reaches n accepted
samples before the modelled draw stream runs out), the returned
sequence has length exactly n, for every n >= 0 and finite c. -/
theorem C2_sample_length (n : ℤ) (c : ℝ) (rands : List (ℝ × ℝ))
    (out : List ℝ) (rest : List (ℝ × ℝ)) (hn : 0 ≤ n)
    (h : truncated_gaussian_sampler n c rands = some (out, rest)) :
    (out.length : ℤ) = n :=
  sampleLoop_length n c (lambda_0 c) (const c) rands [] out rest
    (by simpa using hn) h

/-- C2 (witness): a concrete accepted run with n = 1, c = 0 returns a
sequence of length 1. -/
theorem C2_sample_length_witness :
    (0:ℤ) ≤ 1 ∧ (([(0:ℝ)].length : ℤ) = 1) :=
  ⟨by norm_num, C2_sample_length 1 0 [(0, 0)] [0] [] (by norm_num) run_one⟩

end ClaimC2

section ClaimC3

/-- C3: every element of the sequence returned by sample(n, c) is at
least c, provided every uniform draw u in the stream lies in [0, 1):
each accepted sample is x + c with x = -ln(1-u)/rate >= 0 because
rate > 0. -/
theorem C3_sample_support (n : ℤ) (c : ℝ) (rands : List (ℝ × ℝ))
    (out : List ℝ) (rest : List (ℝ × ℝ))
    (hr : ∀ p ∈ rands, 0 ≤ p.1 ∧ p.1 < 1)
    (h : truncated_gaussian_sampler n c rands = some (out, rest)) :
    ∀ s ∈ out, c ≤ s :=
  sampleLoop_support n c (lambda_0 c) (const c) (lambda_pos c) rands [] out
    rest hr (by simp) h

/-- C3 (witness): in the concrete run with n = 1, c = 0 and draw pair
(0, 0), the accepted sample 0 satisfies 0 <= s. -/
theorem C3_sample_support_witness : (0:ℝ) ≤ 0 :=
  C3_sample_support 1 0 [(0, 0)] [0] []
    (by
      intro p hp
      simp only [List.mem_singleton] at hp
      subst hp
      norm_num) run_one 0 (by simp)

end ClaimC3

section ClaimC4

/-- C4: the tuning step computes exactly the spec's formulas for rate,
the bound factor b and normalizingConstant at every finite c. -/
theorem C4_tuner_matches_spec (c : ℝ) :
    lambda_0 c = specRate c ∧ b c = specB c ∧
      const c = specNormalizingConstant c :=
  ⟨rfl, rfl, rfl⟩

end ClaimC4

section ClaimC5

/-- C5: for every finite c the tuned rate lambda_0 is strictly
positive, because sqrt(c^2 + 4) exceeds the absolute value of c. -/
theorem C5_rate_pos (c : ℝ) :
    |c| < Real.sqrt (c ^ 2 + 4) ∧ 0 < lambda_0 c :=
  ⟨abs_lt_sqrt_sq_add_four c, lambda_pos c⟩

end ClaimC5

section ClaimC6

/-- C6: for every u in [0, 1) and rate > 0 the logarithm inside
inverse_exp is applied to the strictly positive argument 1 - u, so the
candidate is well defined and nonnegative; log of a non-positive number
could only arise at u = 1. -/
theorem C6_log_argument_pos (u lam : ℝ) (hu0 : 0 ≤ u) (hu1 : u < 1)
    (hlam : 0 < lam) :
    0 < 1 - u ∧ inverse_exp u lam = -1 * Real.log (1 - u) / lam ∧
      0 ≤ inverse_exp u lam := by
  refine ⟨by linarith, rfl, ?_⟩
  unfold inverse_exp
  have hlog : Real.log (1 - u) ≤ 0 :=
    Real.log_nonpos (by linarith) (by linarith)
  have hnum : 0 ≤ -1 * Real.log (1 - u) := by linarith
  exact div_nonneg hnum hlam.le

/-- C6 (witness): the guarantee holds at u = 1/2 with rate 1. -/
theorem C6_log_argument_pos_witness :
    0 ≤ (1/2:ℝ) ∧ (1/2:ℝ) < 1 ∧ (0:ℝ) < 1 ∧ 0 < 1 - (1/2:ℝ) ∧
      0 ≤ inverse_exp (1/2) 1 := by
  have h := C6_log_argument_pos (1/2) 1 (by norm_num) (by norm_num)
    (by norm_num)
  exact ⟨by norm_num, by norm_num, by norm_num, h.1, h.2.2⟩

end ClaimC6

section ClaimC7

/-- C7: sample(0, c) returns the empty sequence at once for every
finite c, and consumes nothing from the uniform random stream. -/
theorem C7_sample_zero (c : ℝ) (rands : List (ℝ × ℝ)) :
    truncated_gaussian_sampler 0 c rands = some ([], rands) :=
  sampleLoop_not_lt 0 c (lambda_0 c) (const c) rands [] (by norm_num)

end ClaimC7

section ClaimC8

/-- C8: at c = 0 the tuner computes rate = 1 exactly, and the series
for erf evaluates to 0 at the origin, so Phi(0) = 0.5 exactly. -/
theorem C8_tune_at_zero : lambda_0 0 = 1 ∧ err 0 = 0 ∧ Phi 0 = 1 / 2 :=
  ⟨lambda_zero, err_zero, Phi_zero⟩

end ClaimC8

section ClaimC9

/-- C9: the class-based sampler computes nothing: MonteCarloSampler.py
has no import statements, so the first line of the
truncated_gaussian_sampler method raises NameError for every n, c and
draw stream, while the module-level sampler does return sample
sequences (here at n = 1, c = 0, stream [(0, 0)]); the two
implementations are therefore not equivalent on any input. -/
theorem C9_class_raises_name_error :
    (∀ (n : ℤ) (c : ℝ) (rands : List (ℝ × ℝ)),
      MonteCarloSampler.truncated_gaussian_sampler n c rands =
        Except.error PyNameError.math) ∧
    truncated_gaussian_sampler 1 0 [(0, 0)] = some ([0], []) :=
  ⟨fun _ _ _ => rfl, run_one⟩

end ClaimC9

section ClaimC10

/-- C10: for every negative n, sample(n, c) returns the empty sequence
without consuming any uniform draws, exactly as for n = 0. -/
theorem C10_sample_negative (n : ℤ) (hn : n < 0) (c : ℝ)
    (rands : List (ℝ × ℝ)) :
    truncated_gaussian_sampler n c rands = some ([], rands) :=
  sampleLoop_not_lt n c (lambda_0 c) (const c) rands []
    (by simp only [List.length_nil, Nat.cast_zero]; omega)

/-- C10 (witness): at n = -1, c = 0 with an empty stream the sampler
returns the empty sequence and leaves the stream untouched. -/
theorem C10_sample_negative_witness :
    (-1:ℤ) < 0 ∧ truncated_gaussian_sampler (-1) 0 [] = some ([], []) :=
  ⟨by norm_num, C10_sample_negative (-1) (by norm_num) 0 []⟩

end ClaimC10
